import Mathlib

/-!
Verification of the prefarm reward-address driver
(peas/wallet/puzzles/prefarm/make_prefarm_ph.py) and the evaluation /
hashing / addressing kernel it exercises.

The driver script is embedded directly from the source.  The subsystems it
imports (program evaluator, tree hasher, bech32m address codec, condition
extractor, reward schedule) are not part of the visible source tree; they
are modelled from the specification, as marked on each definition.
-/

set_option maxHeartbeats 1000000

/-- Symbolic expression: an atom is an immutable byte sequence (each entry
intended to be a byte value below 256), a pair owns two sub-expressions. -/
inductive Sexp where
  | atom : List Nat → Sexp
  | pair : Sexp → Sexp → Sexp
deriving DecidableEq, Repr

/-- The empty atom, conventionally the nil / empty-list value. -/
def nilSexp : Sexp := Sexp.atom []

/-- Build a proper list expression out of a Lean list of expressions. -/
def listToSexp : List Sexp → Sexp
  | [] => Sexp.atom []
  | a :: r => Sexp.pair a (listToSexp r)

/-- Big-endian base-256 value of a byte list (unsigned reading). -/
def beToNat (l : List Nat) : Nat := l.foldl (fun a d => 256 * a + d) 0

/-- Minimal big-endian base-256 digits of a natural number, fuelled so the
definition is structural (the fuel argument only needs to be at least the
number itself). -/
def natToBEAux : Nat → Nat → List Nat
  | _, 0 => []
  | 0, _ + 1 => []
  | f + 1, n + 1 => natToBEAux f ((n + 1) / 256) ++ [(n + 1) % 256]

/-- Minimal big-endian base-256 digits of a natural number (empty for 0). -/
def natToBE (n : Nat) : List Nat := natToBEAux n n

/-- Signed two's-complement big-endian reading of a byte list: empty means
zero, a set top bit of the first byte means a negative value.  This is the
numeric interpretation of atoms (int_from_bytes). -/
def intFromBytes (bs : List Nat) : Int :=
  match bs with
  | [] => 0
  | b :: _ =>
    if 128 ≤ b then (beToNat bs : Int) - (256 ^ bs.length : Nat)
    else (beToNat bs : Int)

/-- Minimal two's-complement big-endian encoding of an integer: zero is the
empty byte string, a non-negative value gets a leading zero byte only when
its top bit would otherwise be set, a negative value is encoded in the
fewest bytes whose signed reading recovers it. -/
def intToBytes (i : Int) : List Nat :=
  if i = 0 then []
  else if 0 < i then
    let bs := natToBE i.toNat
    if 128 ≤ bs.headD 0 then 0 :: bs else bs
  else
    let m := (-i).toNat
    let bs := natToBE (m - 1)
    let L := if 128 ≤ bs.headD 0 then bs.length + 1 else max bs.length 1
    natToBE (256 ^ L - m)

/-! ### Bit-level helpers for the base-32 address codec -/

/-- The low `w` bits of a natural number, least-significant first. -/
def natToBitsLE : Nat → Nat → List Bool
  | 0, _ => []
  | w + 1, n => (decide (n % 2 = 1)) :: natToBitsLE w (n / 2)

/-- Value of a least-significant-first bit list. -/
def bitsToNatLE : List Bool → Nat
  | [] => 0
  | b :: bs => (cond b 1 0) + 2 * bitsToNatLE bs

/-- Split a list into chunks of size `k + 1` (the last chunk may be
shorter when the length is not divisible). -/
def chunksBy (k : Nat) : List α → List (List α)
  | [] => []
  | a :: l => (a :: l.take k) :: chunksBy k (l.drop k)
  termination_by l => l.length
  decreasing_by simp; omega

/-- Regroup 8-bit bytes into 5-bit values, zero-padding the final group
(convertbits 8 to 5 with padding). -/
def convert8to5 (bytes : List Nat) : List Nat :=
  let bits := (bytes.map (natToBitsLE 8)).flatten
  let pad := (5 - bits.length % 5) % 5
  (chunksBy 4 (bits ++ List.replicate pad false)).map bitsToNatLE

/-- Regroup 5-bit values into 8-bit bytes, rejecting inputs whose padding
is too long or non-zero (convertbits 5 to 8 without padding). -/
def convert5to8 (vals : List Nat) : Option (List Nat) :=
  let bits := (vals.map (natToBitsLE 5)).flatten
  let r := bits.length % 8
  if 5 ≤ r then none
  else if (bits.drop (bits.length - r)).any (fun b => b) then none
  else some ((chunksBy 7 (bits.take (bits.length - r))).map bitsToNatLE)

/-! ### Address codec (bech32m), modelled from the spec -/

/-- Modelled from the spec: the fixed base-32 character set of the address
codec (missing from the visible source; peas/util/bech32m.py). -/
def bech32Charset : List Char :=
  ['q','p','z','r','y','9','x','8','g','f','2','t','v','d','w','0',
   's','3','j','n','5','4','k','h','c','e','6','m','u','a','7','l']

/-- Character standing for a 5-bit value in an address string. -/
def charsetChar (v : Nat) : Char := bech32Charset.getD v '?'

/-- Position of a character in the base-32 character set, if any. -/
def charsetIndex (c : Char) : Option Nat := bech32Charset.indexOf? c

/-- Modelled from the spec: generator constants of the checksum polynomial
(missing from the visible source; peas/util/bech32m.py). -/
def bech32Gen : List Nat := [0x3b6a57b2, 0x26508e6b, 0x1ea119fa, 0x3d4233dd, 0x2a1462b3]

/-- Modelled from the spec: the bech32m checksum constant. -/
def bech32MConst : Nat := 0x2bc830a3

/-- One step of the checksum polynomial evaluation. -/
def bech32PolymodStep (chk v : Nat) : Nat :=
  let b := chk >>> 25
  (List.range 5).foldl
    (fun c i => if (b >>> i) &&& 1 = 1 then c ^^^ bech32Gen.getD i 0 else c)
    (((chk &&& 0x1ffffff) <<< 5) ^^^ v)

/-- Modelled from the spec: checksum polynomial over a list of 5-bit
values (missing from the visible source; peas/util/bech32m.py). -/
def bech32Polymod (values : List Nat) : Nat := values.foldl bech32PolymodStep 1

/-- Modelled from the spec: the human-readable-part expansion fed to the
checksum (high bits, a zero separator, then low bits of each character). -/
def bech32HrpExpand (hrp : List Char) : List Nat :=
  hrp.map (fun c => c.toNat >>> 5) ++ [0] ++ hrp.map (fun c => c.toNat &&& 31)

/-- Modelled from the spec: the six trailing checksum values computed over
prefix plus payload. -/
def bech32CreateChecksum (hrp : List Char) (data : List Nat) : List Nat :=
  let pm := bech32Polymod (bech32HrpExpand hrp ++ data ++ [0, 0, 0, 0, 0, 0]) ^^^ bech32MConst
  (List.range 6).map (fun i => (pm >>> (5 * (5 - i))) &&& 31)

/-- Modelled from the spec: assemble an address string (as a character
list) from a prefix and a list of 5-bit data values; total, never fails. -/
def bech32Encode (hrp : List Char) (data : List Nat) : List Char :=
  hrp ++ '1' :: (data ++ bech32CreateChecksum hrp data).map charsetChar

/-- Modelled from the spec: encode a 32-byte puzzle hash as an address
under a given prefix (encode_puzzle_hash). -/
def encode_puzzle_hash (hrp : List Char) (h : List Nat) : List Char :=
  bech32Encode hrp (convert8to5 h)

/-- Split a character list at the last occurrence of the separator '1',
returning the part before it and the part after it. -/
def splitLastOne : List Char → Option (List Char × List Char)
  | [] => none
  | c :: rest =>
    match splitLastOne rest with
    | some (p, d) => some (c :: p, d)
    | none => if c = '1' then some ([], rest) else none

/-- Modelled from the spec: parse an address string into its prefix and
5-bit data values, rejecting out-of-range characters, mixed case, a
missing separator, an empty prefix, a short data part, characters outside
the base-32 set, and a checksum that does not match the one recomputed
over prefix plus payload. -/
def bech32Decode (s : List Char) : Option (List Char × List Nat) :=
  if ∃ c ∈ s, c.toNat < 33 ∨ 126 < c.toNat then none
  else if s.map Char.toLower ≠ s ∧ s.map Char.toUpper ≠ s then none
  else
    match splitLastOne (s.map Char.toLower) with
    | none => none
    | some (hrp, dataPart) =>
      if hrp = [] ∨ dataPart.length < 6 then none
      else
        match dataPart.mapM charsetIndex with
        | none => none
        | some values =>
          let data := values.take (values.length - 6)
          let cs := values.drop (values.length - 6)
          if cs = bech32CreateChecksum hrp data then some (hrp, data) else none

/-- Modelled from the spec: decode an address string into its prefix and
32-byte payload (the codec contract decode(address) = (prefix, payload)),
failing when the decoded payload is not exactly 32 bytes. -/
def decodeAddress (s : List Char) : Option (List Char × List Nat) :=
  match bech32Decode s with
  | none => none
  | some (hrp, data) =>
    match convert5to8 data with
    | none => none
    | some bytes => if bytes.length = 32 then some (hrp, bytes) else none

/-- Modelled from the spec: decode_puzzle_hash returns the payload of an
address (the driver discards the prefix). -/
def decode_puzzle_hash (s : List Char) : Option (List Nat) :=
  (decodeAddress s).map (fun pr => pr.2)

/-- Well-formedness of a prefix for the codec: non-empty, characters in
the printable range accepted by the decoder, and case-uniform (lower). -/
def goodHrp (hrp : List Char) : Prop :=
  hrp ≠ [] ∧ ∀ c ∈ hrp, 33 ≤ c.toNat ∧ c.toNat ≤ 126 ∧ c.toLower = c

/-! ### Tree hasher, modelled from the spec -/

/-- Modelled from the spec: stand-in for the underlying 32-byte hash
primitive (the SHA-256 implementation is not part of the visible source);
a pure, deterministic function of the input bytes producing 32 bytes. -/
def hashPrim (input : List Nat) : List Nat :=
  (List.range 32).map
    (fun i => input.foldl (fun a b => (a * 131 + b + 1) % 4294967291) (i + 7919) % 256)

/-- Modelled from the spec: the content hash of an expression tree
(Program.get_tree_hash): an atom hashes a one-byte discriminator followed
by its raw bytes, a pair hashes a different discriminator followed by the
hashes of its two children. -/
def tree_hash : Sexp → List Nat
  | Sexp.atom bs => hashPrim (1 :: bs)
  | Sexp.pair a b => hashPrim (2 :: (tree_hash a ++ tree_hash b))

/-! ### Evaluator (puzzle engine), modelled from the spec -/

/-- Typed failures of the evaluator. -/
inductive EvalError where
  | costExceeded
  | typeMismatch
  | arityError
  | unknownOperator
deriving DecidableEq, Repr

/-- Environment-path lookup, fuelled so the definition is structural: path
0 is nil, path 1 the whole environment, and further bits select the first
or rest component.  The auxiliary fuel only needs to be at least the path
value. -/
def lookupPathAux : Nat → Nat → Sexp → Except EvalError Sexp
  | 0, _, _ => Except.error EvalError.typeMismatch
  | _ + 1, 0, _ => Except.ok (Sexp.atom [])
  | _ + 1, 1, e => Except.ok e
  | f + 1, n + 2, e =>
    match e with
    | Sexp.atom _ => Except.error EvalError.typeMismatch
    | Sexp.pair a b => lookupPathAux f ((n + 2) / 2) (if (n + 2) % 2 = 0 then a else b)

/-- Environment-path lookup by an unsigned path number. -/
def lookupPath (n : Nat) (e : Sexp) : Except EvalError Sexp := lookupPathAux (n + 1) n e

/-- Evaluate each element of a proper argument list with the supplied
evaluator, failing on an improper list. -/
def evalList (ev : Sexp → Except EvalError Sexp) : Sexp → Except EvalError (List Sexp)
  | Sexp.atom [] => Except.ok []
  | Sexp.atom (_ :: _) => Except.error EvalError.typeMismatch
  | Sexp.pair a rest =>
    match ev a with
    | Except.error e => Except.error e
    | Except.ok v =>
      match evalList ev rest with
      | Except.error e => Except.error e
      | Except.ok vs => Except.ok (v :: vs)

/-- Read the integer values of a list of atoms, failing on a pair. -/
def asIntAtoms : List Sexp → Except EvalError (List Int)
  | [] => Except.ok []
  | Sexp.atom bs :: r =>
    match asIntAtoms r with
    | Except.error e => Except.error e
    | Except.ok is => Except.ok (intFromBytes bs :: is)
  | Sexp.pair _ _ :: _ => Except.error EvalError.typeMismatch

/-- Modelled from the spec: apply a non-quote, non-apply operator of the
fixed table to already-evaluated operands: conditional branch (3), cons
(4), decompose-first (5), decompose-rest (6), equality of atoms (9), and
arithmetic on canonical integers (16 add, 17 subtract, 18 multiply);
wrong operand counts fail with arityError, operands of the wrong shape
with typeMismatch, and any opcode outside the table with
unknownOperator. -/
def applyOp (opc : Nat) (vs : List Sexp) : Except EvalError Sexp :=
  match opc, vs with
  | 3, [c, t, f] => Except.ok (if c = Sexp.atom [] then f else t)
  | 3, _ => Except.error EvalError.arityError
  | 4, [a, b] => Except.ok (Sexp.pair a b)
  | 4, _ => Except.error EvalError.arityError
  | 5, [Sexp.pair a _] => Except.ok a
  | 5, [Sexp.atom _] => Except.error EvalError.typeMismatch
  | 5, _ => Except.error EvalError.arityError
  | 6, [Sexp.pair _ b] => Except.ok b
  | 6, [Sexp.atom _] => Except.error EvalError.typeMismatch
  | 6, _ => Except.error EvalError.arityError
  | 9, [Sexp.atom x, Sexp.atom y] =>
    Except.ok (if x = y then Sexp.atom [1] else Sexp.atom [])
  | 9, [_, _] => Except.error EvalError.typeMismatch
  | 9, _ => Except.error EvalError.arityError
  | 16, args =>
    match asIntAtoms args with
    | Except.error e => Except.error e
    | Except.ok is => Except.ok (Sexp.atom (intToBytes (is.foldl (· + ·) 0)))
  | 17, [Sexp.atom x, Sexp.atom y] =>
    Except.ok (Sexp.atom (intToBytes (intFromBytes x - intFromBytes y)))
  | 17, [_, _] => Except.error EvalError.typeMismatch
  | 17, _ => Except.error EvalError.arityError
  | 18, [Sexp.atom x, Sexp.atom y] =>
    Except.ok (Sexp.atom (intToBytes (intFromBytes x * intFromBytes y)))
  | 18, [_, _] => Except.error EvalError.typeMismatch
  | 18, _ => Except.error EvalError.arityError
  | _, _ => Except.error EvalError.unknownOperator

/-- Modelled from the spec: cost-bounded reduction of a program against an
environment.  Every reduction step charges one unit of the remaining cost
budget; a zero budget fails with costExceeded.  An atom in program
position is an environment-path lookup; quote (1) returns its operand
tree unevaluated; apply (2) evaluates its two operands and then runs the
first as a program against the second; every other operator evaluates its
operand list and applies the fixed operator table; a pair in operator
position is a structural fault. -/
def eval : Nat → Sexp → Sexp → Except EvalError Sexp
  | 0, _, _ => Except.error EvalError.costExceeded
  | _ + 1, Sexp.atom bs, env => lookupPath (beToNat bs) env
  | _ + 1, Sexp.pair (Sexp.pair _ _) _, _ => Except.error EvalError.typeMismatch
  | f + 1, Sexp.pair (Sexp.atom opb) args, env =>
    if beToNat opb = 1 then Except.ok args
    else
      match evalList (fun a => eval f a env) args with
      | Except.error e => Except.error e
      | Except.ok vs =>
        if beToNat opb = 2 then
          match vs with
          | [p2, e2] => eval f p2 e2
          | _ => Except.error EvalError.arityError
        else applyOp (beToNat opb) vs

/-- Modelled from the spec: the engine entry point
evaluate(program, solution, cost_limit). -/
def evaluate (prog sol : Sexp) (costLimit : Nat) : Except EvalError Sexp :=
  eval costLimit prog sol

/-- The default cost budget the driver runs under (Program.run supplies a
large fixed limit). -/
def defaultCostLimit : Nat := 4294967296

/-- A self-application loop: the program (a 1 1) run with itself as the
environment reduces to running itself again, so no cost budget is ever
enough. -/
def loopProg : Sexp :=
  Sexp.pair (Sexp.atom [2]) (Sexp.pair (Sexp.atom [1]) (Sexp.pair (Sexp.atom [1]) (Sexp.atom [])))

/-! ### Condition extractor, modelled from the spec -/

/-- Failure of the condition extractor. -/
inductive ExtractError where
  | malformedCondition
deriving DecidableEq, Repr

/-- A decoded condition: an integer opcode and its operand byte strings. -/
structure Condition where
  opcode : Nat
  vars : List (List Nat)
deriving DecidableEq, Repr

/-- View an expression as a proper list, if it is one. -/
def asProperList : Sexp → Option (List Sexp)
  | Sexp.atom [] => some []
  | Sexp.atom (_ :: _) => none
  | Sexp.pair a r =>
    match asProperList r with
    | none => none
    | some l => some (a :: l)

/-- Read the byte strings of a list of atoms, failing on a pair. -/
def atomsOf : List Sexp → Option (List (List Nat))
  | [] => some []
  | Sexp.atom bs :: r =>
    match atomsOf r with
    | none => none
    | some l => some (bs :: l)
  | Sexp.pair _ _ :: _ => none

/-- Modelled from the spec: the expected operand count of the opcodes the
driver relies on; opcode 51 (coin creation, operands destination hash and
amount) expects two operands, every other opcode is unknown and carries
no arity constraint. -/
def arityOf (opc : Nat) : Option Nat := if opc = 51 then some 2 else none

/-- Modelled from the spec: decode one entry of the result list into a
condition.  The entry must be a proper, non-empty list whose head is a
single-byte opcode atom and whose remaining elements are atoms; a known
opcode must carry exactly its expected operand count; unknown opcodes
pass through as opaque conditions. -/
def parseCondition (s : Sexp) : Except ExtractError Condition :=
  match asProperList s with
  | none => Except.error ExtractError.malformedCondition
  | some [] => Except.error ExtractError.malformedCondition
  | some (op :: rest) =>
    match op with
    | Sexp.pair _ _ => Except.error ExtractError.malformedCondition
    | Sexp.atom opb =>
      if opb.length = 1 then
        match atomsOf rest with
        | none => Except.error ExtractError.malformedCondition
        | some vars =>
          match arityOf (beToNat opb) with
          | some k =>
            if vars.length = k then Except.ok ⟨beToNat opb, vars⟩
            else Except.error ExtractError.malformedCondition
          | none => Except.ok ⟨beToNat opb, vars⟩
      else Except.error ExtractError.malformedCondition

/-- Decode every entry of a result list. -/
def parseConditionList : List Sexp → Except ExtractError (List Condition)
  | [] => Except.ok []
  | s :: r =>
    match parseCondition s with
    | Except.error e => Except.error e
    | Except.ok c =>
      match parseConditionList r with
      | Except.error e => Except.error e
      | Except.ok cs => Except.ok (c :: cs)

/-- Modelled from the spec: parse_sexp_to_conditions decodes the
evaluator's output, a proper list of condition entries. -/
def parse_sexp_to_conditions (s : Sexp) : Except ExtractError (List Condition) :=
  match asProperList s with
  | none => Except.error ExtractError.malformedCondition
  | some entries => parseConditionList entries

/-- Structural well-formedness of one result entry, stated independently
of the decoder: a proper non-empty list, a single-byte opcode atom, atom
operands, and an operand count matching the opcode's expected arity when
the opcode is a known one. -/
def entryWellFormed (s : Sexp) : Bool :=
  match asProperList s with
  | some (Sexp.atom op :: rest) =>
    decide (op.length = 1) &&
      rest.all (fun x => match x with | Sexp.atom _ => true | Sexp.pair _ _ => false) &&
      (match arityOf (beToNat op) with
       | some k => decide (rest.length = k)
       | none => true)
  | _ => false

/-- A well-formed condition entry with a given single-byte opcode and atom
operands, for exercising the extractor. -/
def condEntry (opc : Nat) (vars : List (List Nat)) : Sexp :=
  listToSexp (Sexp.atom [opc] :: vars.map Sexp.atom)

/-! ### The reward/verification driver (make_prefarm_ph.py) -/

/-- The first destination address literal of the driver. -/
def address1 : List Char :=
  "pea16ljz9fll4lj2p402ytsfy24sfy7lplmc90vdfsqcppjfyj95ehsssqey9j".toList

/-- The second destination address literal of the driver (the same
string). -/
def address2 : List Char :=
  "pea16ljz9fll4lj2p402ytsfy24sfy7lplmc90vdfsqcppjfyj95ehsssqey9j".toList

/-- The driver's first decoded puzzle hash. -/
def ph1 : Option (List Nat) := decode_puzzle_hash address1

/-- The driver's second decoded puzzle hash. -/
def ph2 : Option (List Nat) := decode_puzzle_hash address2

/-- The byte string of the first decoded puzzle hash (the driver would
abort before using it had decoding failed, so the default is irrelevant
to every property stated below). -/
def ph1bytes : List Nat := ph1.getD (List.replicate 32 0)

/-- The byte string of the second decoded puzzle hash. -/
def ph2bytes : List Nat := ph2.getD (List.replicate 32 0)

/-- Half of the pool reward, as the driver computes it from the external
reward value for height 0 (int(calculate_pool_reward(uint32(0)) / 2)). -/
def pool_amounts (poolReward : Nat) : Nat := poolReward / 2

/-- Half of the farmer reward, as the driver computes it from the external
reward value for height 0. -/
def farmer_amounts (farmerReward : Nat) : Nat := farmerReward / 2

/-- One coin-creation condition entry (51 destination amount), as the
assembler produces it from the driver's puzzle text. -/
def condSexp (dest : List Nat) (amount : Int) : Sexp :=
  listToSexp [Sexp.atom [51], Sexp.atom dest, Sexp.atom (intToBytes amount)]

/-- The quoted body of the driver's puzzle: the two coin-creation
conditions paying the amount to each decoded destination. -/
def puzzleConds (amount : Int) : Sexp :=
  listToSexp [condSexp ph1bytes amount, condSexp ph2bytes amount]

/-- Modelled from the spec: the expression the assembler builds from the
driver's puzzle text (q . ((51 ph1 amount) (51 ph2 amount))); the
assembler itself (clvm_tools binutils.assemble) is not part of the
visible source, so its output tree is written directly. -/
def makePuzzleProg (amount : Int) : Sexp :=
  Sexp.pair (Sexp.atom [1]) (puzzleConds amount)

/-- Failures the driver itself can surface. -/
inductive DriverError where
  | assertionError
  | evalRaised (e : EvalError)
deriving DecidableEq, Repr

/-- The summation loop of make_puzzle: each condition must carry exactly
two operands (the script's assert), and the second operand's integer
value is added to the running total. -/
def sumConds : List Condition → Except DriverError Int
  | [] => Except.ok 0
  | c :: rest =>
    if c.vars.length = 2 then
      match sumConds rest with
      | Except.error e => Except.error e
      | Except.ok t => Except.ok (intFromBytes (c.vars.getD 1 []) + t)
    else Except.error DriverError.assertionError

/-- The tail of make_puzzle, from the evaluator's result on: a raised
evaluation error propagates, a condition-extraction error is printed and
leaves the total at its initial value zero, and otherwise the conditions
are summed under the two-operand assertion. -/
def make_puzzle_core (r : Except EvalError Sexp) : Except DriverError Int :=
  match r with
  | Except.error e => Except.error (DriverError.evalRaised e)
  | Except.ok res =>
    match parse_sexp_to_conditions res with
    | Except.error _ => Except.ok 0
    | Except.ok conds => sumConds conds

/-- The driver's make_puzzle(amount): build the quoted puzzle, run it
against the empty solution, extract conditions and sum the emitted
amounts. -/
def make_puzzle (amount : Int) : Except DriverError Int :=
  make_puzzle_core (evaluate (makePuzzleProg amount) nilSexp defaultCostLimit)

/-- The conditions make_puzzle's extraction yields for a given amount. -/
def driverConds (amount : Int) : List Condition :=
  [⟨51, [ph1bytes, intToBytes amount]⟩, ⟨51, [ph2bytes, intToBytes amount]⟩]

/-- The driver's grand total: make_puzzle on half the pool reward plus
make_puzzle on half the farmer reward, for externally supplied reward
values. -/
def driverGrandTotal (poolReward farmerReward : Nat) : Except DriverError Int :=
  match make_puzzle (pool_amounts poolReward) with
  | Except.error e => Except.error e
  | Except.ok a =>
    match make_puzzle (farmer_amounts farmerReward) with
    | Except.error e => Except.error e
    | Except.ok b => Except.ok (a + b)

/-- Sum of the amounts of every coin-creation (opcode 51) condition in a
list. -/
def sumCreateCoinAmounts (cs : List Condition) : Int :=
  cs.foldl (fun acc c => if c.opcode = 51 then acc + intFromBytes (c.vars.getD 1 []) else acc) 0

/-! ### Lemmas: base-256 encoding and the integer round trip -/

theorem beToNat_append (l : List Nat) (d : Nat) :
    beToNat (l ++ [d]) = 256 * beToNat l + d := by
  simp [beToNat, List.foldl_append]

theorem beToNat_cons_zero (l : List Nat) : beToNat (0 :: l) = beToNat l := by
  simp [beToNat]

theorem natToBEAux_eq (n : Nat) : ∀ f f', n ≤ f → n ≤ f' →
    natToBEAux f n = natToBEAux f' n := by
  induction n using Nat.strong_induction_on with
  | _ n ih =>
    intro f f' hf hf'
    match n, f, f' with
    | 0, f, f' => cases f <;> cases f' <;> rfl
    | n + 1, f + 1, f' + 1 =>
      show natToBEAux f ((n + 1) / 256) ++ _ = natToBEAux f' ((n + 1) / 256) ++ _
      have hd : (n + 1) / 256 < n + 1 := Nat.div_lt_self (Nat.succ_pos n) (by norm_num)
      rw [ih _ hd f f' (by omega) (by omega)]

theorem natToBE_succ (n : Nat) (h : n ≠ 0) :
    natToBE n = natToBE (n / 256) ++ [n % 256] := by
  obtain ⟨m, rfl⟩ : ∃ m, n = m + 1 := ⟨n - 1, by omega⟩
  show natToBEAux m ((m + 1) / 256) ++ _ = _
  have hd : (m + 1) / 256 < m + 1 := Nat.div_lt_self (Nat.succ_pos m) (by norm_num)
  rw [natToBE, natToBEAux_eq ((m + 1) / 256) m ((m + 1) / 256) (by omega) (le_refl _)]

theorem beToNat_natToBE (n : Nat) : beToNat (natToBE n) = n := by
  induction n using Nat.strong_induction_on with
  | _ n ih =>
    rcases eq_or_ne n 0 with rfl | h
    · rfl
    · rw [natToBE_succ n h, beToNat_append,
        ih (n / 256) (Nat.div_lt_self (Nat.pos_of_ne_zero h) (by norm_num))]
      omega

theorem natToBE_eq_nil_iff (n : Nat) : natToBE n = [] ↔ n = 0 := by
  constructor
  · intro h
    by_contra hn
    rw [natToBE_succ n hn] at h
    simp at h
  · rintro rfl; rfl

theorem natToBE_lt (n : Nat) : n < 256 ^ (natToBE n).length := by
  induction n using Nat.strong_induction_on with
  | _ n ih =>
    rcases eq_or_ne n 0 with rfl | h
    · simp [natToBE, natToBEAux]
    · rw [natToBE_succ n h]
      have h1 := ih (n / 256) (Nat.div_lt_self (Nat.pos_of_ne_zero h) (by norm_num))
      simp only [List.length_append, List.length_singleton]
      have h2 : 256 ^ ((natToBE (n / 256)).length + 1)
          = 256 * 256 ^ (natToBE (n / 256)).length := by ring
      rw [h2]
      omega

theorem natToBE_le (n : Nat) (h : n ≠ 0) : 256 ^ ((natToBE n).length - 1) ≤ n := by
  induction n using Nat.strong_induction_on with
  | _ n ih =>
    rw [natToBE_succ n h]
    rcases eq_or_ne (n / 256) 0 with h0 | h0
    · rw [h0]
      simpa [natToBE, natToBEAux] using Nat.pos_of_ne_zero h
    · have hd : n / 256 < n := Nat.div_lt_self (Nat.pos_of_ne_zero h) (by norm_num)
      have h1 := ih (n / 256) hd h0
      have hne : natToBE (n / 256) ≠ [] := by
        rw [Ne, natToBE_eq_nil_iff]; exact h0
      have hlen : 1 ≤ (natToBE (n / 256)).length := by
        cases hc : natToBE (n / 256) with
        | nil => exact absurd hc hne
        | cons a t => simp
      simp only [List.length_append, List.length_singleton]
      have h2 : (natToBE (n / 256)).length + 1 - 1 = ((natToBE (n / 256)).length - 1) + 1 := by
        omega
      rw [h2, pow_succ]
      have h3 : 256 ^ ((natToBE (n / 256)).length - 1) * 256 ≤ (n / 256) * 256 :=
        Nat.mul_le_mul_right _ h1
      have h4 : (n / 256) * 256 ≤ n := by
        have := Nat.div_add_mod n 256
        omega
      omega

theorem natToBE_headD (n : Nat) (h : n ≠ 0) :
    (natToBE n).headD 0 = n / 256 ^ ((natToBE n).length - 1) := by
  induction n using Nat.strong_induction_on with
  | _ n ih =>
    rw [natToBE_succ n h]
    rcases eq_or_ne (n / 256) 0 with h0 | h0
    · rw [h0]
      have hn : n < 256 := by omega
      simp [natToBE, natToBEAux, Nat.mod_eq_of_lt hn]
    · have hd : n / 256 < n := Nat.div_lt_self (Nat.pos_of_ne_zero h) (by norm_num)
      have h1 := ih (n / 256) hd h0
      have hne : natToBE (n / 256) ≠ [] := by
        rw [Ne, natToBE_eq_nil_iff]; exact h0
      obtain ⟨b, t, hbt⟩ := List.exists_cons_of_ne_nil hne
      rw [hbt] at h1 ⊢
      simp only [List.headD_cons, List.length_cons, Nat.add_sub_cancel] at h1
      simp only [List.cons_append, List.headD_cons, List.length_append, List.length_cons,
        List.length_nil, Nat.add_sub_cancel]
      rw [h1, Nat.div_div_eq_div_mul, ← pow_succ']

theorem natToBE_length_eq (v L : Nat) (h1 : 256 ^ (L - 1) ≤ v) (h2 : v < 256 ^ L)
    (hL : 1 ≤ L) : (natToBE v).length = L := by
  have hv0 : v ≠ 0 := by
    have : 0 < 256 ^ (L - 1) := pow_pos (by norm_num) _
    omega
  have hlow := natToBE_le v hv0
  have hup := natToBE_lt v
  have ha : L - 1 < (natToBE v).length :=
    (Nat.pow_lt_pow_iff_right (by norm_num : 1 < 256)).mp (lt_of_le_of_lt h1 hup)
  have hb : (natToBE v).length - 1 < L :=
    (Nat.pow_lt_pow_iff_right (by norm_num : 1 < 256)).mp (lt_of_le_of_lt hlow h2)
  omega

theorem intFromBytes_intToBytes (i : Int) : intFromBytes (intToBytes i) = i := by
  rcases lt_trichotomy i 0 with hneg | rfl | hpos
  · -- negative values
    have h0 : i ≠ 0 := by omega
    have hnp : ¬ 0 < i := by omega
    simp only [intToBytes, if_neg h0, if_neg hnp]
    set m := (-i).toNat with hm
    have hm1 : 1 ≤ m := by omega
    set bs := natToBE (m - 1) with hbs
    set L := if 128 ≤ bs.headD 0 then bs.length + 1 else max bs.length 1 with hL
    have hL1 : 1 ≤ L := by rw [hL]; split <;> omega
    have hK : 0 < 256 ^ (L - 1) := pow_pos (by norm_num) _
    have hmle : m ≤ 128 * 256 ^ (L - 1) := by
      by_cases hh : 128 ≤ bs.headD 0
      · rw [hL, if_pos hh]
        have hlt := natToBE_lt (m - 1)
        rw [← hbs] at hlt
        have hpow : 256 ^ bs.length ≤ 128 * 256 ^ bs.length :=
          Nat.le_mul_of_pos_left _ (by norm_num)
        simp only [Nat.add_sub_cancel]
        omega
      · rw [hL, if_neg hh]
        rcases eq_or_ne (m - 1) 0 with h10 | h10
        · have hbsnil : bs = [] := by rw [hbs, h10]; rfl
          rw [hbsnil]
          simp only [List.length_nil]
          have : max 0 1 - 1 = 0 := by omega
          rw [this]
          simp only [pow_zero, Nat.mul_one]
          omega
        · have hne : bs ≠ [] := by rw [hbs, Ne, natToBE_eq_nil_iff]; exact h10
          have hlen1 : 1 ≤ bs.length := by
            cases hc : bs with
            | nil => exact absurd hc hne
            | cons a t => simp
          have hmax : max bs.length 1 = bs.length := by omega
          rw [hmax]
          have hhead := natToBE_headD (m - 1) h10
          rw [← hbs] at hhead
          have hdiv : (m - 1) / 256 ^ (bs.length - 1) < 128 := by
            rw [← hhead]; omega
          have hKb : 0 < 256 ^ (bs.length - 1) := pow_pos (by norm_num) _
          have := (Nat.div_lt_iff_lt_mul hKb).mp hdiv
          omega
    set v := 256 ^ L - m with hv
    have hub : 256 ^ (L - 1) * 256 = 256 ^ L := by
      rw [← pow_succ]; congr 1; omega
    have hvlow : 128 * 256 ^ (L - 1) ≤ v := by rw [hv]; omega
    have hvup : v < 256 ^ L := by rw [hv]; omega
    have hv0 : v ≠ 0 := by omega
    have hlenv : (natToBE v).length = L :=
      natToBE_length_eq v L (le_trans (Nat.le_mul_of_pos_left _ (by norm_num)) hvlow) hvup hL1
    have hheadv : 128 ≤ (natToBE v).headD 0 := by
      rw [natToBE_headD v hv0, hlenv, Nat.le_div_iff_mul_le hK]
      omega
    have hvne : natToBE v ≠ [] := by rw [Ne, natToBE_eq_nil_iff]; exact hv0
    obtain ⟨b, t, hbt⟩ := List.exists_cons_of_ne_nil hvne
    rw [hbt]
    have hbhead : b = (natToBE v).headD 0 := by rw [hbt]; rfl
    have hbe : beToNat (b :: t) = v := by rw [← hbt, beToNat_natToBE]
    have hlen2 : (b :: t).length = L := by rw [← hbt, hlenv]
    simp only [intFromBytes]
    rw [if_pos (hbhead ▸ hheadv), hbe, hlen2]
    have hmle2 : m ≤ 256 ^ L := by omega
    have hmi : (m : Int) = -i := by
      rw [hm]; exact Int.toNat_of_nonneg (by omega)
    have hvi : (v : Int) = (256 ^ L : Nat) - (m : Int) := by
      rw [hv]; push_cast [Nat.cast_sub hmle2]; ring
    rw [hvi, hmi]
    ring
  · rfl
  · -- positive values
    have h0 : i ≠ 0 := by omega
    simp only [intToBytes, if_neg h0, if_pos hpos]
    set n := i.toNat with hn
    have hn0 : n ≠ 0 := by omega
    have hni : (n : Int) = i := by rw [hn]; exact Int.toNat_of_nonneg (by omega)
    by_cases hh : 128 ≤ (natToBE n).headD 0
    · rw [if_pos hh]
      simp only [intFromBytes]
      rw [if_neg (by omega : ¬ 128 ≤ 0), beToNat_cons_zero, beToNat_natToBE]
      exact hni
    · rw [if_neg hh]
      have hne : natToBE n ≠ [] := by rw [Ne, natToBE_eq_nil_iff]; exact hn0
      obtain ⟨b, t, hbt⟩ := List.exists_cons_of_ne_nil hne
      rw [hbt]
      have hbhead : b = (natToBE n).headD 0 := by rw [hbt]; rfl
      have hbe : beToNat (b :: t) = n := by rw [← hbt, beToNat_natToBE]
      simp only [intFromBytes]
      rw [if_neg (by rw [hbhead]; exact hh), hbe]
      exact hni

/-! ### Lemmas: bits, chunks, and the 8-to-5 round trip -/

theorem length_natToBitsLE (w n : Nat) : (natToBitsLE w n).length = w := by
  induction w generalizing n with
  | zero => rfl
  | succ w ih => simp [natToBitsLE, ih]

theorem mod_two_mul_decomp (n k : Nat) (hk : 0 < k) :
    n % (2 * k) = n % 2 + 2 * (n / 2 % k) := by
  have h1 : n = 2 * (k * (n / 2 / k)) + (n % 2 + 2 * (n / 2 % k)) := by
    have ha := Nat.div_add_mod n 2
    have hb := Nat.div_add_mod (n / 2) k
    omega
  have h2 : n % 2 + 2 * (n / 2 % k) < 2 * k := by
    have := Nat.mod_lt (n / 2) hk
    omega
  conv_lhs => rw [h1]
  have h3 : 2 * (k * (n / 2 / k)) = 2 * k * (n / 2 / k) := by ring
  rw [h3, Nat.add_comm, Nat.add_mul_mod_self_left, Nat.mod_eq_of_lt h2]

theorem bitsToNatLE_natToBitsLE (w n : Nat) :
    bitsToNatLE (natToBitsLE w n) = n % 2 ^ w := by
  induction w generalizing n with
  | zero => simp [natToBitsLE, bitsToNatLE, Nat.mod_one]
  | succ w ih =>
    simp only [natToBitsLE, bitsToNatLE, ih]
    have hc : (cond (decide (n % 2 = 1)) 1 0 : Nat) = n % 2 := by
      rcases Nat.mod_two_eq_zero_or_one n with h | h <;> simp [h]
    rw [hc, show (2 : Nat) ^ (w + 1) = 2 * 2 ^ w by ring,
      mod_two_mul_decomp n (2 ^ w) (pow_pos (by norm_num) w)]

theorem natToBitsLE_bitsToNatLE (g : List Bool) :
    natToBitsLE g.length (bitsToNatLE g) = g := by
  induction g with
  | nil => rfl
  | cons b bs ih =>
    simp only [List.length_cons, natToBitsLE, bitsToNatLE]
    have h1 : (cond b 1 0 + 2 * bitsToNatLE bs) % 2 = cond b 1 0 := by
      cases b <;> simp <;> omega
    have h2 : (cond b 1 0 + 2 * bitsToNatLE bs) / 2 = bitsToNatLE bs := by
      cases b <;> simp <;> omega
    simp only [h1, h2, ih]
    cases b <;> simp

theorem bitsToNatLE_lt (g : List Bool) : bitsToNatLE g < 2 ^ g.length := by
  induction g with
  | nil => simp [bitsToNatLE]
  | cons b bs ih =>
    simp only [bitsToNatLE, List.length_cons]
    have h2 : 2 ^ (bs.length + 1) = 2 * 2 ^ bs.length := by ring
    cases b <;> simp <;> omega

theorem chunksBy_flatten_bounded (k n : Nat) :
    ∀ (l : List α), l.length ≤ n → (chunksBy k l).flatten = l := by
  induction n with
  | zero =>
    intro l hl
    have : l = [] := List.eq_nil_of_length_eq_zero (by omega)
    subst this; simp [chunksBy]
  | succ n ih =>
    intro l hl
    cases l with
    | nil => simp [chunksBy]
    | cons a t =>
      rw [chunksBy]
      simp only [List.flatten_cons]
      rw [ih (t.drop k) (by simp at hl ⊢; omega)]
      simp [List.take_append_drop]

theorem chunksBy_flatten (k : Nat) (l : List α) : (chunksBy k l).flatten = l :=
  chunksBy_flatten_bounded k l.length l (le_refl _)

theorem chunksBy_length_mem_bounded (k n : Nat) :
    ∀ (l : List α), l.length ≤ n → (k + 1) ∣ l.length →
      ∀ c ∈ chunksBy k l, c.length = k + 1 := by
  induction n with
  | zero =>
    intro l hl _ c hc
    have : l = [] := List.eq_nil_of_length_eq_zero (by omega)
    subst this
    simp [chunksBy] at hc
  | succ n ih =>
    intro l hl hdvd c hc
    cases l with
    | nil => simp [chunksBy] at hc
    | cons a t =>
      rw [chunksBy] at hc
      have htk : k ≤ t.length := by
        rcases hdvd with ⟨q, hq⟩
        simp only [List.length_cons] at hq
        rcases Nat.eq_zero_or_pos q with rfl | hq0
        · omega
        · have : k + 1 ≤ (k + 1) * q := Nat.le_mul_of_pos_right _ hq0
          omega
      rcases List.mem_cons.mp hc with rfl | hmem
      · simp [Nat.min_eq_left htk]
      · refine ih (t.drop k) (by simp at hl ⊢; omega) ?_ c hmem
        rw [List.length_drop]
        have hd2 : (k + 1) ∣ (t.length + 1) := by simpa using hdvd
        have hd3 := Nat.dvd_sub' hd2 (dvd_refl (k + 1))
        have he : t.length + 1 - (k + 1) = t.length - k := by omega
        rwa [he] at hd3

theorem chunksBy_of_flatten (k : Nat) :
    ∀ (ls : List (List α)), (∀ c ∈ ls, c.length = k + 1) → chunksBy k ls.flatten = ls := by
  intro ls
  induction ls with
  | nil => intro _; simp [chunksBy]
  | cons c cs ih =>
    intro hlen
    have hc : c.length = k + 1 := hlen c (List.mem_cons_self c cs)
    obtain ⟨a, c', rfl⟩ : ∃ a c', c = a :: c' := by
      cases c with
      | nil => simp at hc
      | cons a c' => exact ⟨a, c', rfl⟩
    have hc' : c'.length = k := by simpa using hc
    simp only [List.flatten_cons, List.cons_append]
    rw [chunksBy]
    rw [List.take_left' (by simpa using hc'), List.drop_left' (by simpa using hc')]
    rw [ih (fun d hd => hlen d (List.mem_cons_of_mem _ hd))]

theorem flatten_map_length {β : Type} (w : Nat) (f : β → List Bool)
    (hf : ∀ b, (f b).length = w) (l : List β) :
    ((l.map f).flatten).length = w * l.length := by
  induction l with
  | nil => simp
  | cons a t ih =>
    simp [ih, hf a]
    ring

theorem convert8to5_lt (h : List Nat) : ∀ v ∈ convert8to5 h, v < 32 := by
  intro v hv
  simp only [convert8to5, List.mem_map] at hv
  obtain ⟨c, hc, rfl⟩ := hv
  set bits := (h.map (natToBitsLE 8)).flatten with hbits
  set pad := (5 - bits.length % 5) % 5 with hpad
  have hdvd : 5 ∣ (bits ++ List.replicate pad false).length := by
    simp only [List.length_append, List.length_replicate]
    omega
  have hlen : c.length = 5 :=
    chunksBy_length_mem_bounded 4 (bits ++ List.replicate pad false).length
      (bits ++ List.replicate pad false) (le_refl _) (by simpa using hdvd) c hc
  have := bitsToNatLE_lt c
  rw [hlen] at this
  simpa using this

theorem convert_roundtrip (h : List Nat) (hlen : h.length = 32)
    (hbound : ∀ b ∈ h, b < 256) : convert5to8 (convert8to5 h) = some h := by
  have hbl : ((h.map (natToBitsLE 8)).flatten).length = 256 := by
    rw [flatten_map_length 8 (natToBitsLE 8) (length_natToBitsLE 8) h, hlen]
  set bits := (h.map (natToBitsLE 8)).flatten with hbits
  have hpad : (5 - bits.length % 5) % 5 = 4 := by rw [hbl]
  set padded := bits ++ List.replicate 4 false with hpadded
  have hplen : padded.length = 260 := by
    rw [hpadded]; simp [hbl]
  have hgroups : convert8to5 h = (chunksBy 4 padded).map bitsToNatLE := by
    simp only [convert8to5, ← hbits, hpad, ← hpadded]
  have hchunklen : ∀ c ∈ chunksBy 4 padded, c.length = 5 := by
    intro c hc
    have := chunksBy_length_mem_bounded 4 padded.length padded (le_refl _)
      (by rw [hplen]; norm_num) c hc
    simpa using this
  have hback : (convert8to5 h).map (natToBitsLE 5) = chunksBy 4 padded := by
    rw [hgroups, List.map_map]
    have : ∀ c ∈ chunksBy 4 padded, (natToBitsLE 5 ∘ bitsToNatLE) c = c := by
      intro c hc
      have h5 := hchunklen c hc
      show natToBitsLE 5 (bitsToNatLE c) = c
      rw [← h5, natToBitsLE_bitsToNatLE]
    exact List.map_congr_left this |>.trans (List.map_id _)
  have hflat : ((convert8to5 h).map (natToBitsLE 5)).flatten = padded := by
    rw [hback, chunksBy_flatten]
  rw [convert5to8]
  simp only [hflat, hplen]
  have hr : (260 : Nat) % 8 = 4 := by norm_num
  rw [hr]
  rw [if_neg (by norm_num)]
  have hdrop : padded.drop (260 - 4) = List.replicate 4 false := by
    rw [hpadded]
    have : (260 : Nat) - 4 = bits.length := by rw [hbl]
    rw [this, List.drop_left]
  have htake : padded.take (260 - 4) = bits := by
    rw [hpadded]
    have : (260 : Nat) - 4 = bits.length := by rw [hbl]
    rw [this, List.take_left]
  rw [if_neg (by rw [hdrop]; simp)]
  rw [htake]
  have hbytes : chunksBy 7 bits = h.map (natToBitsLE 8) := by
    rw [hbits]
    exact chunksBy_of_flatten 7 (h.map (natToBitsLE 8))
      (by intro c hc; simp only [List.mem_map] at hc; obtain ⟨b, _, rfl⟩ := hc
          exact length_natToBitsLE 8 b)
  rw [hbytes, List.map_map]
  congr 1
  have : ∀ b ∈ h, (bitsToNatLE ∘ natToBitsLE 8) b = b := by
    intro b hb
    show bitsToNatLE (natToBitsLE 8 b) = b
    rw [bitsToNatLE_natToBitsLE]
    exact Nat.mod_eq_of_lt (by have := hbound b hb; omega)
  exact (List.map_congr_left this).trans (List.map_id _)

/-! ### Lemmas: the address codec round trip -/

theorem charset_facts : ∀ v < 32, 33 ≤ (charsetChar v).toNat ∧ (charsetChar v).toNat ≤ 126 ∧
    (charsetChar v).toLower = charsetChar v ∧ charsetChar v ≠ '1' ∧
    charsetIndex (charsetChar v) = some v := by decide

theorem bech32CreateChecksum_length (hrp : List Char) (data : List Nat) :
    (bech32CreateChecksum hrp data).length = 6 := by
  simp [bech32CreateChecksum]

theorem bech32CreateChecksum_lt (hrp : List Char) (data : List Nat) :
    ∀ v ∈ bech32CreateChecksum hrp data, v < 32 := by
  intro v hv
  simp only [bech32CreateChecksum, List.mem_map, List.mem_range] at hv
  obtain ⟨i, _, rfl⟩ := hv
  have h31 : ((bech32Polymod (bech32HrpExpand hrp ++ data ++ [0, 0, 0, 0, 0, 0]) ^^^
      bech32MConst) >>> (5 * (5 - i))) &&& 31 ≤ 31 := Nat.and_le_right
  omega

theorem splitLastOne_of_no_sep (l : List Char) (h : ∀ c ∈ l, c ≠ '1') :
    splitLastOne l = none := by
  induction l with
  | nil => rfl
  | cons c t ih =>
    rw [splitLastOne, ih (fun d hd => h d (List.mem_cons_of_mem _ hd))]
    rw [if_neg (h c (List.mem_cons_self c t))]

theorem splitLastOne_append (p d : List Char) (h : ∀ c ∈ d, c ≠ '1') :
    splitLastOne (p ++ '1' :: d) = some (p, d) := by
  induction p with
  | nil =>
    simp only [List.nil_append]
    rw [splitLastOne, splitLastOne_of_no_sep d h, if_pos rfl]
  | cons c t ih =>
    simp only [List.cons_append]
    rw [splitLastOne, ih]

theorem mapM_charsetIndex (vs : List Nat) (hb : ∀ v ∈ vs, v < 32) :
    (vs.map charsetChar).mapM charsetIndex = some vs := by
  induction vs with
  | nil => rfl
  | cons v t ih =>
    have hv := (charset_facts v (hb v (List.mem_cons_self v t))).2.2.2.2
    simp only [List.map_cons, List.mapM_cons, hv,
      ih (fun w hw => hb w (List.mem_cons_of_mem _ hw))]
    rfl

theorem map_toLower_fixed (s : List Char) (h : ∀ c ∈ s, c.toLower = c) :
    s.map Char.toLower = s :=
  (List.map_congr_left h).trans (List.map_id s)

theorem decode_encode (p : List Char) (h : List Nat) (hp : goodHrp p)
    (hlen : h.length = 32) (hbound : ∀ b ∈ h, b < 256) :
    decodeAddress (encode_puzzle_hash p h) = some (p, h) := by
  obtain ⟨hpne, hpchars⟩ := hp
  set data5 := convert8to5 h with hdata5
  set cs := bech32CreateChecksum p data5 with hcs
  set dataChars := (data5 ++ cs).map charsetChar with hdataChars
  have hall : ∀ v ∈ data5 ++ cs, v < 32 := by
    intro v hv
    rcases List.mem_append.mp hv with hv | hv
    · exact convert8to5_lt h v hv
    · exact bech32CreateChecksum_lt p data5 v hv
  have hdc : ∀ c ∈ dataChars, 33 ≤ c.toNat ∧ c.toNat ≤ 126 ∧ c.toLower = c ∧ c ≠ '1' := by
    intro c hc
    rw [hdataChars] at hc
    simp only [List.mem_map] at hc
    obtain ⟨v, hv, rfl⟩ := hc
    have := charset_facts v (hall v hv)
    exact ⟨this.1, this.2.1, this.2.2.1, this.2.2.2.1⟩
  have hs : encode_puzzle_hash p h = p ++ '1' :: dataChars := rfl
  rw [hs]
  have hA : ¬ ∃ c ∈ p ++ '1' :: dataChars, c.toNat < 33 ∨ 126 < c.toNat := by
    rintro ⟨c, hc, hout⟩
    rcases List.mem_append.mp hc with hc | hc
    · have := hpchars c hc
      omega
    · rcases List.mem_cons.mp hc with rfl | hc
      · revert hout; decide
      · have := hdc c hc
        omega
  have hmap : (p ++ '1' :: dataChars).map Char.toLower = p ++ '1' :: dataChars := by
    simp only [List.map_append, List.map_cons]
    have h1l : '1'.toLower = '1' := by decide
    rw [map_toLower_fixed p (fun c hc => (hpchars c hc).2.2),
      map_toLower_fixed dataChars (fun c hc => (hdc c hc).2.2.1), h1l]
  have hB : ¬ ((p ++ '1' :: dataChars).map Char.toLower ≠ p ++ '1' :: dataChars ∧
      (p ++ '1' :: dataChars).map Char.toUpper ≠ p ++ '1' :: dataChars) :=
    fun hcon => hcon.1 hmap
  have hsplit : splitLastOne (p ++ '1' :: dataChars) = some (p, dataChars) :=
    splitLastOne_append p dataChars (fun c hc => (hdc c hc).2.2.2)
  have hcslen : cs.length = 6 := bech32CreateChecksum_length p data5
  have hdclen : dataChars.length = data5.length + 6 := by
    rw [hdataChars]
    simp [hcslen]
  have hne : ¬ (p = [] ∨ dataChars.length < 6) := by
    rintro (rfl | hlt)
    · exact hpne rfl
    · omega
  have hmapM : dataChars.mapM charsetIndex = some (data5 ++ cs) := by
    rw [hdataChars]
    exact mapM_charsetIndex (data5 ++ cs) hall
  have hvlen : (data5 ++ cs).length - 6 = data5.length := by
    simp [hcslen]
  have htake : (data5 ++ cs).take ((data5 ++ cs).length - 6) = data5 := by
    rw [hvlen]
    exact List.take_left' rfl
  have hdrop : (data5 ++ cs).drop ((data5 ++ cs).length - 6) = cs := by
    rw [hvlen]
    exact List.drop_left' rfl
  have hb32 : bech32Decode (p ++ '1' :: dataChars) = some (p, data5) := by
    rw [bech32Decode, if_neg hA, if_neg hB, hmap, hsplit]
    simp only [if_neg hne, hmapM, htake, hdrop, ← hcs]
    simp
  rw [decodeAddress, hb32]
  simp only [hdata5, convert_roundtrip h hlen hbound, hlen]
  simp

/-! ### Lemmas: the evaluator -/

theorem eval_quote (f : Nat) (x e : Sexp) :
    eval (f + 1) (Sexp.pair (Sexp.atom [1]) x) e = Except.ok x := rfl

theorem evalList_mono (ev ev' : Sexp → Except EvalError Sexp)
    (h : ∀ a v, ev a = Except.ok v → ev' a = Except.ok v) :
    ∀ args vs, evalList ev args = Except.ok vs → evalList ev' args = Except.ok vs := by
  intro args
  induction args with
  | atom bs =>
    intro vs hvs
    cases bs with
    | nil => simpa [evalList] using hvs
    | cons b t => simp [evalList] at hvs
  | pair a rest iha ihrest =>
    intro vs hvs
    simp only [evalList] at hvs ⊢
    cases hev : ev a with
    | error e => rw [hev] at hvs; simp at hvs
    | ok v =>
      rw [hev] at hvs
      rw [h a v hev]
      cases hrest : evalList ev rest with
      | error e => rw [hrest] at hvs; simp at hvs
      | ok vs' =>
        rw [hrest] at hvs
        rw [ihrest vs' hrest]
        exact hvs

theorem eval_mono : ∀ (n m : Nat), n ≤ m → ∀ p e v,
    eval n p e = Except.ok v → eval m p e = Except.ok v := by
  intro n
  induction n with
  | zero => intro m _ p e v hv; simp [eval] at hv
  | succ n ih =>
    intro m hm p e v hv
    obtain ⟨m', rfl⟩ : ∃ m', m = m' + 1 := ⟨m - 1, by omega⟩
    have hm' : n ≤ m' := by omega
    cases p with
    | atom bs =>
      simp only [eval] at hv ⊢
      exact hv
    | pair op args =>
      cases op with
      | pair x y => simp [eval] at hv
      | atom opb =>
        simp only [eval] at hv ⊢
        by_cases hq : beToNat opb = 1
        · rw [if_pos hq] at hv ⊢; exact hv
        · rw [if_neg hq] at hv ⊢
          cases hargs : evalList (fun a => eval n a e) args with
          | error er => rw [hargs] at hv; simp at hv
          | ok vs =>
            simp only [hargs] at hv
            have hargs' : evalList (fun a => eval m' a e) args = Except.ok vs :=
              evalList_mono _ _ (fun a w hw => ih m' hm' a e w hw) args vs hargs
            simp only [hargs']
            by_cases ha : beToNat opb = 2
            · rw [if_pos ha] at hv ⊢
              cases vs with
              | nil => simp at hv
              | cons v1 t1 =>
                cases t1 with
                | nil => simp at hv
                | cons v2 t2 =>
                  cases t2 with
                  | nil => exact ih m' hm' v1 v2 v hv
                  | cons v3 t3 => simp at hv
            · rw [if_neg ha] at hv ⊢
              exact hv

theorem loop_diverges : ∀ n, eval n loopProg loopProg = Except.error EvalError.costExceeded := by
  intro n
  induction n using Nat.strong_induction_on with
  | _ n ih =>
    match n with
    | 0 => rfl
    | 1 => rfl
    | f + 2 => exact ih (f + 1) (by omega)

/-! ### Lemmas: the driver pipeline -/

theorem evaluate_makePuzzleProg (A : Int) :
    evaluate (makePuzzleProg A) nilSexp defaultCostLimit = Except.ok (puzzleConds A) := by
  have h : defaultCostLimit = 4294967295 + 1 := rfl
  rw [evaluate, makePuzzleProg, h]
  exact eval_quote _ _ _

theorem parse_puzzleConds (A : Int) :
    parse_sexp_to_conditions (puzzleConds A) = Except.ok (driverConds A) := rfl

theorem make_puzzle_ok (A : Int) : make_puzzle A = Except.ok (2 * A) := by
  have h1 : make_puzzle A = sumConds (driverConds A) := by
    rw [make_puzzle, evaluate_makePuzzleProg]
    rfl
  have h2 : sumConds (driverConds A) =
      Except.ok (intFromBytes (intToBytes A) + (intFromBytes (intToBytes A) + 0)) := rfl
  rw [h1, h2, intFromBytes_intToBytes]
  congr 1
  ring

/-! ### Lemmas: the condition extractor -/

theorem asProperList_listToSexp (l : List Sexp) : asProperList (listToSexp l) = some l := by
  induction l with
  | nil => rfl
  | cons a t ih => simp [listToSexp, asProperList, ih]

theorem atomsOf_map_atom (vars : List (List Nat)) :
    atomsOf (vars.map Sexp.atom) = some vars := by
  induction vars with
  | nil => rfl
  | cons v t ih => simp [atomsOf, ih]

theorem parseCondition_condEntry (opc : Nat) (vars : List (List Nat))
    (ha : arityOf opc = none) :
    parseCondition (condEntry opc vars) = Except.ok ⟨opc, vars⟩ := by
  have hbe : beToNat [opc] = opc := by simp [beToNat]
  simp only [parseCondition, condEntry, asProperList_listToSexp, atomsOf_map_atom, hbe, ha]
  simp

theorem atomsOf_isSome (rest : List Sexp) :
    (atomsOf rest).isSome =
      rest.all (fun x => match x with | Sexp.atom _ => true | Sexp.pair _ _ => false) := by
  induction rest with
  | nil => rfl
  | cons a t ih =>
    cases a with
    | atom bs =>
      cases h : atomsOf t with
      | none =>
        rw [h] at ih
        simp only [atomsOf, h, List.all_cons]
        simp [← ih]
      | some l =>
        rw [h] at ih
        simp only [atomsOf, h, List.all_cons]
        simp [← ih]
    | pair x y => simp [atomsOf]

theorem atomsOf_length (rest : List Sexp) (vars : List (List Nat))
    (h : atomsOf rest = some vars) : vars.length = rest.length := by
  induction rest generalizing vars with
  | nil =>
    simp only [atomsOf, Option.some_inj] at h
    subst h; rfl
  | cons a t ih =>
    cases a with
    | pair x y => simp [atomsOf] at h
    | atom bs =>
      simp only [atomsOf] at h
      cases ht : atomsOf t with
      | none => rw [ht] at h; simp at h
      | some l =>
        rw [ht] at h
        simp only [Option.some_inj] at h
        subst h
        simp [ih l ht]

theorem parseCondition_ok_iff (s : Sexp) :
    (∃ c, parseCondition s = Except.ok c) ↔ entryWellFormed s = true := by
  cases hap : asProperList s with
  | none => simp [parseCondition, entryWellFormed, hap]
  | some entries =>
    cases entries with
    | nil => simp [parseCondition, entryWellFormed, hap]
    | cons op rest =>
      cases op with
      | pair x y => simp [parseCondition, entryWellFormed, hap]
      | atom opb =>
        by_cases hlen : opb.length = 1
        · cases hato : atomsOf rest with
          | none =>
            have hall := atomsOf_isSome rest
            rw [hato] at hall
            simp [parseCondition, entryWellFormed, hap, hlen, hato, ← hall]
          | some vars =>
            have hall := atomsOf_isSome rest
            rw [hato] at hall
            have hlv := atomsOf_length rest vars hato
            cases har : arityOf (beToNat opb) with
            | none =>
              simp [parseCondition, entryWellFormed, hap, hlen, hato, har, ← hall]
            | some k =>
              by_cases hk : vars.length = k
              · simp [parseCondition, entryWellFormed, hap, hlen, hato, har, ← hall, hk, ← hlv]
              · simp [parseCondition, entryWellFormed, hap, hlen, hato, har, ← hall, ← hlv, hk]
        · simp [parseCondition, entryWellFormed, hap, hlen]

theorem parseCondition_malformed (s : Sexp) (h : entryWellFormed s = false) :
    parseCondition s = Except.error ExtractError.malformedCondition := by
  cases hp : parseCondition s with
  | ok c =>
    have := (parseCondition_ok_iff s).mp ⟨c, hp⟩
    rw [h] at this
    exact absurd this (by simp)
  | error e => cases e; rfl

theorem sumConds_bad (conds : List Condition) (c : Condition) (hc : c ∈ conds)
    (hlen : c.vars.length ≠ 2) :
    sumConds conds = Except.error DriverError.assertionError := by
  induction conds with
  | nil => simp at hc
  | cons d t ih =>
    rcases List.mem_cons.mp hc with rfl | hmem
    · simp only [sumConds, if_neg hlen]
    · by_cases hd : d.vars.length = 2
      · simp only [sumConds, if_pos hd, ih hmem]
      · simp only [sumConds, if_neg hd]

/-! ### Lemmas: tree hash and decoded-address shape -/

theorem hashPrim_length (l : List Nat) : (hashPrim l).length = 32 := by
  simp [hashPrim]

theorem tree_hash_length (e : Sexp) : (tree_hash e).length = 32 := by
  cases e <;> simp [tree_hash, hashPrim_length]

theorem decodeAddress_length (s : List Char) (pr : List Char × List Nat)
    (h : decodeAddress s = some pr) : pr.2.length = 32 := by
  simp only [decodeAddress] at h
  split at h
  · simp at h
  · rename_i hrp data heq
    split at h
    · simp at h
    · rename_i bytes heq2
      split at h
      · rename_i h32
        simp only [Option.some_inj] at h
        subst h
        exact h32
      · simp at h

theorem ph1bytes_length : ph1bytes.length = 32 := by
  rw [ph1bytes]
  cases hph : ph1 with
  | none => simp
  | some x =>
    simp only [Option.getD_some]
    have hx : decode_puzzle_hash address1 = some x := hph
    rw [decode_puzzle_hash] at hx
    cases hda : decodeAddress address1 with
    | none => rw [hda] at hx; simp at hx
    | some pr =>
      rw [hda] at hx
      simp only [Option.map_some', Option.some_inj] at hx
      rw [← hx]
      exact decodeAddress_length address1 pr hda

/-! ### The claims -/

/-- C1: for even external pool and farmer rewards (height 0), the driver's
grand total — make_puzzle on half the pool reward plus make_puzzle on half
the farmer reward — is exactly the pool reward plus the farmer reward, and
this equals the sum of the amounts of all coin-creation conditions the two
puzzles emit. -/
theorem claim_C1 : ∀ P F : Nat, P % 2 = 0 → F % 2 = 0 →
    driverGrandTotal P F = Except.ok ((P : Int) + (F : Int)) ∧
    sumCreateCoinAmounts
        (driverConds (pool_amounts P : Int) ++ driverConds (farmer_amounts F : Int)) =
      (P : Int) + (F : Int) := by
  intro P F hP hF
  constructor
  · simp only [driverGrandTotal, make_puzzle_ok]
    congr 1
    simp only [pool_amounts, farmer_amounts]
    omega
  · have h2 : ∀ x y : Int, sumCreateCoinAmounts (driverConds x ++ driverConds y) =
        x + x + (y + y) := by
      intro x y
      have h0 : sumCreateCoinAmounts (driverConds x ++ driverConds y) =
          0 + intFromBytes (intToBytes x) + intFromBytes (intToBytes x) +
            intFromBytes (intToBytes y) + intFromBytes (intToBytes y) := rfl
      rw [h0, intFromBytes_intToBytes, intFromBytes_intToBytes]
      ring
    rw [h2]
    simp only [pool_amounts, farmer_amounts]
    omega

/-- C1 witness at the concrete even rewards 4 and 6. -/
theorem claim_C1_witness :
    driverGrandTotal 4 6 = Except.ok (((4 : Nat) : Int) + ((6 : Nat) : Int)) ∧
    sumCreateCoinAmounts
        (driverConds (pool_amounts 4 : Int) ++ driverConds (farmer_amounts 6 : Int)) =
      ((4 : Nat) : Int) + ((6 : Nat) : Int) :=
  claim_C1 4 6 (by decide) (by decide)

/-- C2: an even reward halves exactly: the driver's integer half, doubled,
recovers the reward, for both script assertions. -/
theorem claim_C2 : ∀ P F : Nat, P % 2 = 0 → F % 2 = 0 →
    pool_amounts P * 2 = P ∧ farmer_amounts F * 2 = F := by
  intro P F hP hF
  constructor <;> simp only [pool_amounts, farmer_amounts] <;> omega

/-- C2 witness at the concrete even rewards 4 and 6. -/
theorem claim_C2_witness : pool_amounts 4 * 2 = 4 ∧ farmer_amounts 6 * 2 = 6 :=
  claim_C2 4 6 (by decide) (by decide)

/-- C3: for every amount, running the assembled quoted puzzle against the
empty solution yields the two-condition body, extraction yields exactly two
conditions with opcode 51 whose second operand decodes back to the amount,
and make_puzzle returns twice the amount. -/
theorem claim_C3 : ∀ A : Int,
    evaluate (makePuzzleProg A) nilSexp defaultCostLimit = Except.ok (puzzleConds A) ∧
    parse_sexp_to_conditions (puzzleConds A) = Except.ok (driverConds A) ∧
    (driverConds A).map Condition.opcode = [51, 51] ∧
    (driverConds A).map (fun c => intFromBytes (c.vars.getD 1 [])) = [A, A] ∧
    make_puzzle A = Except.ok (2 * A) := by
  intro A
  refine ⟨evaluate_makePuzzleProg A, parse_puzzleConds A, rfl, ?_, make_puzzle_ok A⟩
  simp [driverConds, intFromBytes_intToBytes]

/-- C4: the extractor passes well-formed entries with unknown opcodes
through as opaque conditions; an entry decodes successfully exactly when
it is structurally well-formed, and a structurally invalid entry fails
with MalformedCondition, which is also the only failure of the list-level
extractor. -/
theorem claim_C4 :
    (∀ opc vars, opc < 256 → arityOf opc = none →
      parseCondition (condEntry opc vars) = Except.ok ⟨opc, vars⟩) ∧
    (∀ s, (∃ c, parseCondition s = Except.ok c) ↔ entryWellFormed s = true) ∧
    (∀ s, entryWellFormed s = false →
      parseCondition s = Except.error ExtractError.malformedCondition) ∧
    (∀ s, (∃ cs, parse_sexp_to_conditions s = Except.ok cs) ∨
      parse_sexp_to_conditions s = Except.error ExtractError.malformedCondition) := by
  refine ⟨fun opc vars _ ha => parseCondition_condEntry opc vars ha,
    parseCondition_ok_iff, parseCondition_malformed, fun s => ?_⟩
  cases hp : parse_sexp_to_conditions s with
  | ok cs => exact Or.inl ⟨cs, rfl⟩
  | error e => cases e; exact Or.inr rfl

/-- C4 witness: a well-formed entry with the unknown opcode 99 passes
through unchanged, and a structurally invalid entry fails. -/
theorem claim_C4_witness :
    parseCondition (condEntry 99 [[1, 2], [3]]) = Except.ok ⟨99, [[1, 2], [3]]⟩ ∧
    parseCondition (Sexp.atom [5]) = Except.error ExtractError.malformedCondition :=
  ⟨claim_C4.1 99 [[1, 2], [3]] (by decide) (by decide),
   claim_C4.2.2.1 (Sexp.atom [5]) (by decide)⟩

/-- C5: for every well-formed prefix and 32-byte payload, decoding the
encoded address returns exactly the prefix and the payload; the encoder is
a total function. -/
theorem claim_C5 : ∀ (p : List Char) (h : List Nat), goodHrp p → h.length = 32 →
    (∀ b ∈ h, b < 256) → decodeAddress (encode_puzzle_hash p h) = some (p, h) :=
  fun p h hp hl hb => decode_encode p h hp hl hb

/-- C5 witness at the prefix pea and the all-zero 32-byte payload. -/
theorem claim_C5_witness :
    decodeAddress (encode_puzzle_hash ['p', 'e', 'a'] (List.replicate 32 0)) =
      some (['p', 'e', 'a'], List.replicate 32 0) :=
  claim_C5 ['p', 'e', 'a'] (List.replicate 32 0) ⟨by decide, by decide⟩ (by decide)
    (by decide)

/-- C6: evaluation always terminates with a value or a typed failure; a
zero cost budget fails with CostExceeded, and the self-application loop
fails with CostExceeded under every cost limit, showing the cost bound is
the sole termination guarantee. -/
theorem claim_C6 :
    (∀ p s l, (∃ v, evaluate p s l = Except.ok v) ∨
      (∃ e, evaluate p s l = Except.error e)) ∧
    (∀ p s, evaluate p s 0 = Except.error EvalError.costExceeded) ∧
    (∀ l, evaluate loopProg loopProg l = Except.error EvalError.costExceeded) := by
  refine ⟨fun p s l => ?_, fun p s => rfl, fun l => loop_diverges l⟩
  cases h : evaluate p s l with
  | ok v => exact Or.inl ⟨v, rfl⟩
  | error e => exact Or.inr ⟨e, rfl⟩

/-- C7: evaluation is deterministic, and enlarging the cost limit never
changes a successful result. -/
theorem claim_C7 :
    (∀ p s l, evaluate p s l = evaluate p s l) ∧
    (∀ p s l l' v, l ≤ l' → evaluate p s l = Except.ok v →
      evaluate p s l' = Except.ok v) :=
  ⟨fun _ _ _ => rfl, fun p s l l' v h hv => eval_mono l l' h p s v hv⟩

/-- C7 witness: a successful run under cost limit 1 is preserved under
cost limit 2. -/
theorem claim_C7_witness :
    evaluate (Sexp.pair (Sexp.atom [1]) (Sexp.atom [7])) nilSexp 2 =
      Except.ok (Sexp.atom [7]) :=
  claim_C7.2 (Sexp.pair (Sexp.atom [1]) (Sexp.atom [7])) nilSexp 1 2 (Sexp.atom [7])
    (by omega) rfl

/-- C8: the tree hash is a pure total function of tree structure — equal
trees hash equal — and its digest is always 32 bytes. -/
theorem claim_C8 :
    (∀ e1 e2 : Sexp, e1 = e2 → tree_hash e1 = tree_hash e2) ∧
    (∀ e : Sexp, (tree_hash e).length = 32) :=
  ⟨fun _ _ h => h ▸ rfl, tree_hash_length⟩

/-- C8 witness at the empty atom. -/
theorem claim_C8_witness :
    tree_hash nilSexp = tree_hash nilSexp ∧ (tree_hash nilSexp).length = 32 :=
  ⟨claim_C8.1 nilSexp nilSexp rfl, claim_C8.2 nilSexp⟩

/-- C9: the two configured destination addresses are the same literal, the
decoded puzzle hashes coincide and are 32 bytes, and every puzzle the
driver builds pays both of its conditions to that same destination
hash. -/
theorem claim_C9 : ph1 = ph2 ∧ ph1bytes.length = 32 ∧
    ∀ A : Int, (driverConds A).map (fun c => c.vars.headD []) = [ph1bytes, ph1bytes] := by
  have hpp : ph1 = ph2 := congrArg decode_puzzle_hash (rfl : address1 = address2)
  refine ⟨hpp, ph1bytes_length, fun A => ?_⟩
  have hb : ph2bytes = ph1bytes := by rw [ph2bytes, ph1bytes, hpp]
  simp [driverConds, hb]

/-- C10: a condition-extraction error inside make_puzzle is not raised:
the total stays at its initial value zero; on the success path any
condition with an operand count other than two trips the script's assert
instead of contributing to a total. -/
theorem claim_C10 :
    (∀ res err, parse_sexp_to_conditions res = Except.error err →
      make_puzzle_core (Except.ok res) = Except.ok 0) ∧
    (∀ res conds c, parse_sexp_to_conditions res = Except.ok conds → c ∈ conds →
      c.vars.length ≠ 2 →
      make_puzzle_core (Except.ok res) = Except.error DriverError.assertionError) := by
  constructor
  · intro res err h
    simp only [make_puzzle_core, h]
  · intro res conds c h hc hlen
    simp only [make_puzzle_core, h]
    exact sumConds_bad conds c hc hlen

/-- C10 witness: a non-list result makes make_puzzle return zero, and a
one-operand condition with an unknown opcode trips the assert. -/
theorem claim_C10_witness :
    make_puzzle_core (Except.ok (Sexp.atom [5])) = Except.ok 0 ∧
    make_puzzle_core (Except.ok (listToSexp [condEntry 99 [[1]]])) =
      Except.error DriverError.assertionError :=
  ⟨claim_C10.1 (Sexp.atom [5]) ExtractError.malformedCondition rfl,
   claim_C10.2 (listToSexp [condEntry 99 [[1]]]) [⟨99, [[1]]⟩] ⟨99, [[1]]⟩ rfl
     (List.mem_singleton.mpr rfl) (by decide)⟩
